import Mathlib

/-!
The `inspect` tool (`inspect.go`).

A shallow embedding of `inspect.go` and proofs of its specified behaviour.

Modelling conventions.

* A Go `string` is a `List Char`.  Every comment text the tool sees comes out of
  a successful `parser.ParseFile`, whose scanner rejects ill-formed UTF-8, so a
  string is a sequence of Unicode scalar values; the separator `,` and the
  prefix `inspect:` are ASCII, so splitting and prefix tests agree with the
  byte-level operations of Go.
* A Go slice is a `Slice`: `Slice.nil` is the nil slice, `Slice.of xs` a
  non-nil slice with elements `xs`.
* A `*types.Scope` is a `ScopeRef`: the scope followed by its chain of parents,
  the empty chain being the nil pointer.
* Effects are recorded as a trace of `Event`s; a `Run` is a trace together with
  the value of the panic that ended it, if one did.
* What the tool delegates to libraries (`os.ReadFile`, `filepath.Base`,
  `parser.ParseFile`, `types.Checker.Files`, the universe scope, the `%q` verb)
  is a field of `Env`.  `strings.HasPrefix`, `strings.TrimPrefix`,
  `strings.Split`, `strings.TrimSpace`, `unicode.IsSpace`,
  `(*types.Scope).Innermost` and `(*types.Scope).LookupParent` are embedded
  after the Go standard library.
-/

namespace Inspect

/-! ## Strings and slices -/

/-- A Go string, as its sequence of Unicode scalar values. -/
abbrev Str := List Char

/-- A Go slice: the nil slice, or a non-nil slice holding `xs`. -/
inductive Slice (α : Type) where
  | nil : Slice α
  | of (xs : List α) : Slice α
  deriving DecidableEq

/-- The elements a `range` loop over the slice visits. -/
def Slice.elems {α : Type} : Slice α → List α
  | Slice.nil => []
  | Slice.of xs => xs

/-- Go's built-in `append(s, x)`: the result is never nil. -/
def Slice.append {α : Type} : Slice α → α → Slice α
  | Slice.nil, x => Slice.of [x]
  | Slice.of xs, x => Slice.of (xs ++ [x])

/-- The test `s == nil`. -/
def Slice.isNil {α : Type} : Slice α → Bool
  | Slice.nil => true
  | Slice.of _ => false

/-- Go's `unicode.IsSpace`: the code points with the White_Space property. -/
def isSpace (r : Char) : Bool :=
  let n := r.toNat
  (decide (0x09 ≤ n) && decide (n ≤ 0x0D)) || n == 0x20 || n == 0x85 || n == 0xA0 ||
  n == 0x1680 || (decide (0x2000 ≤ n) && decide (n ≤ 0x200A)) || n == 0x2028 ||
  n == 0x2029 || n == 0x202F || n == 0x205F || n == 0x3000

/-- Go's `strings.HasPrefix(s, pre)`: `len(s) >= len(pre) && s[:len(pre)] == pre`. -/
def HasPrefix (s pre : Str) : Bool :=
  decide (pre.length ≤ s.length) && (s.take pre.length == pre)

/-- Go's `strings.TrimPrefix(s, pre)`. -/
def TrimPrefix (s pre : Str) : Str :=
  if HasPrefix s pre then s.drop pre.length else s

/-- Go's `strings.Split(s, sep)` for a one-character separator, the only use in
the source: the substrings between the separators, always at least one. -/
def Split (s : Str) (sep : Char) : List Str :=
  match s with
  | [] => [[]]
  | c :: cs =>
    if c = sep then [] :: Split cs sep
    else
      match Split cs sep with
      | [] => [[c]]
      | p :: ps => (c :: p) :: ps

/-- The index scan from the left of `strings.TrimSpace`. -/
def trimLeftSpace : Str → Str
  | [] => []
  | c :: cs => if isSpace c then trimLeftSpace cs else c :: cs

/-- The index scan from the right of `strings.TrimSpace`. -/
def trimRightSpace : Str → Str
  | [] => []
  | c :: cs =>
    match trimRightSpace cs with
    | [] => if isSpace c then [] else [c]
    | d :: ds => c :: d :: ds

/-- Go's `strings.TrimSpace`: `s[start:stop]`. -/
def TrimSpace (s : Str) : Str :=
  trimRightSpace (trimLeftSpace s)

/-! ## `findLookupNames` -/

/-- The constant `inspectPrefix` of the source. -/
def inspectPrefix : Str := "inspect:".toList

/-- The function `findLookupNames` of the source. -/
def findLookupNames (commentText : Str) : Slice Str :=
  if !HasPrefix commentText inspectPrefix then
    Slice.nil
  else
    let text := TrimPrefix commentText inspectPrefix
    let parts := Split text ','
    parts.foldl
      (fun names part =>
        let name := TrimSpace part
        if name ≠ [] then names.append name else names)
      Slice.nil

/-! ## Objects, positions and scopes of `go/types` -/

/-- The dynamic type of a `types.Object`. -/
inductive ObjKind where
  | Var | Func | Const | TypeName | PkgName | Builtin | Nil | Label
  deriving DecidableEq

/-- What the verb `%T` prints for an object of this dynamic type. -/
def ObjKind.goName : ObjKind → Str
  | ObjKind.Var => "*types.Var".toList
  | ObjKind.Func => "*types.Func".toList
  | ObjKind.Const => "*types.Const".toList
  | ObjKind.TypeName => "*types.TypeName".toList
  | ObjKind.PkgName => "*types.PkgName".toList
  | ObjKind.Builtin => "*types.Builtin".toList
  | ObjKind.Nil => "*types.Nil".toList
  | ObjKind.Label => "*types.Label".toList

/-- A non-nil `types.Object`, as the data `formatObj` and the scope lookup read
from it; the renderings computed by `go/types` are carried as text. -/
structure Object where
  /-- the dynamic type -/
  kind : ObjKind
  /-- the text of `obj.Type().String()` -/
  typeString : Str
  /-- the text `%v` prints for `obj.Pkg()` -/
  pkgString : Str
  /-- the declaration position `obj.Pos()` -/
  pos : Nat
  /-- the position from which the object is visible in its scope; `0` (NoPos)
  for package-level and universe objects -/
  scopePos : Nat
  /-- the value of `Exported()` -/
  exported : Bool
  /-- the text of `sig.Params().String()` of a function -/
  params : Str
  /-- the text of `sig.Results().String()` of a function -/
  results : Str
  /-- the text `%T` prints for `obj.Type().Underlying()` -/
  underlyingKind : Str
  /-- the text of `obj.Type().Underlying().String()` -/
  underlyingString : Str
  deriving DecidableEq

/-- A `token.FileSet`, as its rendering `fset.Position(pos).String()`. -/
structure FileSet where
  /-- the text of `fset.Position(pos)` -/
  Position : Nat → Str

/-- A `types.Scope`: its extent `[pos, end)`, its elements and its children. -/
inductive Scope where
  | mk (pos end_ : Nat) (elems : List (Str × Object)) (children : List Scope) : Scope

/-- The children of a scope. -/
def Scope.children : Scope → List Scope
  | Scope.mk _ _ _ cs => cs

/-- The method `(*Scope).Contains`: `s.pos <= pos && pos < s.end`. -/
def Scope.Contains : Scope → Nat → Bool
  | Scope.mk p e _ _, pos => decide (p ≤ pos) && decide (pos < e)

/-- The method `(*Scope).Lookup`: the object the scope itself declares under `name`. -/
def Scope.Lookup : Scope → Str → Option Object
  | Scope.mk _ _ elems _, name => elems.lookup name

/-- A `*types.Scope`: the scope followed by its parents, innermost first; the
empty chain is the nil pointer. -/
abbrev ScopeRef := List Scope

mutual
/-- The method `(*Scope).Innermost` for a scope whose parent is not the universe:
the scope itself when no child contains `pos`, else the answer of the first
child that does; nil when the scope does not contain `pos`. -/
def Scope.innermostIn (pos : Nat) (parents : ScopeRef) : Scope → ScopeRef
  | Scope.mk p e elems children =>
    if decide (p ≤ pos) && decide (pos < e) then
      match Scope.innermostChild pos (Scope.mk p e elems children :: parents) children with
      | [] => Scope.mk p e elems children :: parents
      | s :: chain => s :: chain
    else []
/-- The loop over `s.children` inside `Innermost`. -/
def Scope.innermostChild (pos : Nat) (parents : ScopeRef) : List Scope → ScopeRef
  | [] => []
  | c :: cs =>
    if c.Contains pos then Scope.innermostIn pos parents c
    else Scope.innermostChild pos parents cs
end

/-- The loop of `Innermost` taken when the receiver is a package scope
(`s.parent == Universe`): the first file scope with a non-nil answer. -/
def innermostFile (pos : Nat) (parents : ScopeRef) : List Scope → ScopeRef
  | [] => []
  | c :: cs =>
    match Scope.innermostIn pos parents c with
    | [] => innermostFile pos parents cs
    | s :: chain => s :: chain

/-- The call `pkg.Scope().Innermost(pos)`: the receiver is the package scope, whose
parent is the universe. -/
def Innermost (univ pkgScope : Scope) (pos : Nat) : ScopeRef :=
  match innermostFile pos [pkgScope, univ] pkgScope.children with
  | [] => Scope.innermostIn pos [univ] pkgScope
  | s :: chain => s :: chain

/-- The method `(*Scope).LookupParent(name, pos)`: follow the parent chain to the first
scope that declares `name`, counting, for a valid `pos`, only objects declared
at or before `pos`; nil when there is none (and for the nil receiver). -/
def LookupParent (name : Str) (pos : Nat) : ScopeRef → Option Object
  | [] => none
  | s :: parents =>
    match s.Lookup name with
    | some obj =>
      if pos = 0 ∨ obj.scopePos ≤ pos then some obj
      else LookupParent name pos parents
    | none => LookupParent name pos parents

/-! ## The program -/

/-- An `ast.CommentGroup`, as the two values the tool reads from it. -/
structure CommentGroup where
  /-- the result of `comment.Text()` -/
  Text : Str
  /-- the result of `comment.Pos()` -/
  Pos : Nat

/-- An `ast.File`: its comment groups in source order, and the rest of the
syntax tree kept abstract. -/
structure AstFile where
  /-- the syntax tree apart from the comments -/
  Syntax : Str
  /-- the field `f.Comments` -/
  Comments : List CommentGroup

/-- The library calls the tool delegates to. -/
structure Env where
  /-- the call `os.ReadFile(file)` -/
  ReadFile : Str → Except Str Str
  /-- the call `filepath.Base(file)` -/
  Base : Str → Str
  /-- the call `parser.ParseFile(fset, fileName, code, parser.ParseComments)`, returning
  the file set filled in beside the file -/
  ParseFile : Str → Str → Except Str (FileSet × AstFile)
  /-- the call `checker.Files` on the one file, returning the package scope it fills -/
  Files : AstFile → Except Str Scope
  /-- the scope `types.Universe` -/
  Universe : Scope
  /-- the text the verb `%q` prints for a string -/
  Quote : Str → Str

/-- An effect of the program. -/
inductive Event where
  | readFile (file : Str) : Event
  | parseFile (fileName : Str) : Event
  | checkFiles : Event
  | lookup (name : Str) (pos : Nat) : Event
  | print (text : Str) : Event
  deriving DecidableEq

/-- The effects of a computation, and the panic value that ended it, if any. -/
structure Run where
  /-- the effects, in order -/
  trace : List Event
  /-- the value passed to the builtin panic, when the run ended in one -/
  panicked : Option Str
  deriving DecidableEq

/-- The text written to standard output by a trace. -/
def stdout : List Event → Str
  | [] => []
  | Event.print text :: rest => text ++ stdout rest
  | _ :: rest => stdout rest

/-- The number of scope lookups in a trace. -/
def lookups : List Event → Nat
  | [] => 0
  | Event.lookup _ _ :: rest => lookups rest + 1
  | _ :: rest => lookups rest

/-- The function `formatObj` of the source. -/
def formatObj (fset : FileSet) (obj : Option Object) : Str :=
  match obj with
  | none => "\t<not found>\n".toList
  | some o =>
    let pos := fset.Position o.pos
    let buff : Str := []
    let buff := buff ++ ("\tKind: ".toList ++ o.kind.goName ++ "\n".toList)
    let buff := buff ++ ("\tType: ".toList ++ o.typeString ++ "\n".toList)
    let buff := buff ++ ("\tPkg: ".toList ++ o.pkgString ++ "\n".toList)
    let buff := buff ++ ("\tPos: ".toList ++ pos ++ "\n".toList)
    let buff :=
      if o.kind = ObjKind.Var then
        buff ++ ("\tVar isExported: ".toList ++ (toString o.exported).toList ++ "\n".toList)
      else buff
    let buff :=
      if o.kind = ObjKind.Func then
        (buff ++ ("\tFunc Params: ".toList ++ o.params ++ "\n".toList))
          ++ ("\tFunc Results: ".toList ++ o.results ++ "\n".toList)
      else buff
    buff ++ ("\tUnderlying Type: ".toList ++ o.underlyingKind ++ " ".toList
      ++ o.underlyingString ++ "\n".toList)

/-- The function `printObj` of the source: `Printf` with the format
`"%s,\t%q\n"` on `fset.Position(pos)` and `name`, then `Println` of
`formatObj(fset, obj)`. -/
def printObj (env : Env) (fset : FileSet) (pos : Nat) (name : Str)
    (obj : Option Object) : List Event :=
  [Event.print (fset.Position pos ++ (",\t".toList ++ (env.Quote name ++ "\n".toList))),
   Event.print (formatObj fset obj ++ "\n".toList)]

/-- The inner loop of `inspectCode`, over the names of one directive. -/
def nameLoop (env : Env) (fset : FileSet) (pos : Nat) (scope : ScopeRef) :
    List Str → List Event
  | [] => []
  | name :: rest =>
    let obj := LookupParent name pos scope
    (Event.lookup name pos :: printObj env fset pos name obj)
      ++ nameLoop env fset pos scope rest

/-- The loop of `inspectCode` over `f.Comments`. -/
def commentLoop (env : Env) (fset : FileSet) (pkgScope : Scope) :
    List CommentGroup → List Event
  | [] => []
  | comment :: rest =>
    let names := findLookupNames comment.Text
    if names.isNil then
      commentLoop env fset pkgScope rest
    else
      let pos := comment.Pos
      let scope := Innermost env.Universe pkgScope pos
      nameLoop env fset pos scope names.elems ++ commentLoop env fset pkgScope rest

/-- The function `inspectCode` of the source. -/
def inspectCode (env : Env) (code fileName : Str) : Run :=
  match env.ParseFile fileName code with
  | Except.error err => ⟨[Event.parseFile fileName], some err⟩
  | Except.ok (fset, f) =>
    match env.Files f with
    | Except.error err => ⟨[Event.parseFile fileName, Event.checkFiles], some err⟩
    | Except.ok pkgScope =>
      ⟨[Event.parseFile fileName, Event.checkFiles]
        ++ commentLoop env fset pkgScope f.Comments, none⟩

/-- The function `inspectFile` of the source. -/
def inspectFile (env : Env) (file : Str) : Run :=
  match env.ReadFile file with
  | Except.error err => ⟨[Event.readFile file], some err⟩
  | Except.ok data =>
    let filename := env.Base file
    let r := inspectCode env data filename
    ⟨Event.readFile file :: r.trace, r.panicked⟩

/-- The banner line `main` prints before a file. -/
def banner (file : Str) : Str :=
  "Inspecting file: ".toList ++ file ++ "\n".toList

/-- The loop of `main` over `os.Args[1:]`; a panic ends it. -/
def fileLoop (env : Env) : List Str → Run
  | [] => ⟨[], none⟩
  | file :: rest =>
    let r := inspectFile env file
    match r.panicked with
    | some err => ⟨Event.print (banner file) :: r.trace, some err⟩
    | none =>
      let r2 := fileLoop env rest
      ⟨Event.print (banner file) :: (r.trace ++ r2.trace), r2.panicked⟩

/-- The function `main` of the source, on the argument vector `os.Args`. -/
def main (env : Env) (args : List Str) : Run :=
  if args.length ≤ 1 then
    ⟨[Event.print "usage: inspect <file.go>\n".toList], none⟩
  else
    fileLoop env (args.drop 1)

/-! ## The specification's reading of the directive grammar -/

/-- Trimming of surrounding whitespace, as the specification words it. -/
def specTrim (piece : Str) : Str :=
  ((piece.dropWhile isSpace).reverse.dropWhile isSpace).reverse

/-- The specification's name list of a directive body: split on commas, trim
each piece, drop the pieces that are empty after trimming. -/
def specNames (body : Str) : List Str :=
  ((body.splitOn ',').map specTrim).filter (fun piece => piece ≠ [])

/-- The slice the accumulation loop of `findLookupNames` builds from a list of
kept names. -/
def Slice.ofNames (acc : Slice Str) (kept : List Str) : Slice Str :=
  match kept with
  | [] => acc
  | k :: ks => Slice.of (acc.elems ++ k :: ks)


/-- A well-formed name of the round trip: not empty, no leading or trailing
whitespace, no comma. -/
def isName (n : Str) : Bool :=
  match n.head?, n.getLast? with
  | some a, some b => !isSpace a && !isSpace b && n.all (fun c => c != ',')
  | _, _ => false

/-- An empty or whitespace-only text. -/
def isBlank (w : Str) : Bool :=
  w.all isSpace

/-- One comma-separated entry of a padded directive body: a name with
whitespace added on both sides, or an entry that carries no name. -/
inductive Entry where
  | named (left name right : Str) : Entry
  | blank (space : Str) : Entry

/-- The text of an entry. -/
def Entry.text : Entry → Str
  | Entry.named left name right => left ++ name ++ right
  | Entry.blank space => space

/-- The name an entry carries, if any. -/
def Entry.name : Entry → Option Str
  | Entry.named _ name _ => some name
  | Entry.blank _ => none

/-- The padding of an entry is whitespace and its name is well formed. -/
def Entry.wellFormed : Entry → Bool
  | Entry.named left name right => isBlank left && isName name && isBlank right
  | Entry.blank space => isBlank space

/-- The header line of a report, as the specification describes it: the source
position of the comment, a comma and a tab, the requested name in quotes, and
the end of the line. -/
def header (env : Env) (fset : FileSet) (pos : Nat) (name : Str) : Str :=
  fset.Position pos ++ ",\t".toList ++ env.Quote name ++ "\n".toList

/-- The report of one name of a directive, as the specification describes it:
the lookup, then the line with the source position of the comment and the
quoted name, then the `formatObj` block of the object found, closed by a
newline. -/
def report (env : Env) (fset : FileSet) (pkgScope : Scope) (c : CommentGroup)
    (name : Str) : List Event :=
  [Event.lookup name c.Pos,
   Event.print (fset.Position c.Pos ++ ",\t".toList ++ env.Quote name ++ "\n".toList),
   Event.print (formatObj fset
     (LookupParent name c.Pos (Innermost env.Universe pkgScope c.Pos)) ++ "\n".toList)]

/-- The text of the report of one name. -/
def reportText (env : Env) (fset : FileSet) (pkgScope : Scope) (c : CommentGroup)
    (name : Str) : Str :=
  (fset.Position c.Pos ++ ",\t".toList ++ env.Quote name ++ "\n".toList)
    ++ (formatObj fset
      (LookupParent name c.Pos (Innermost env.Universe pkgScope c.Pos)) ++ "\n".toList)

/-- The error with which a file fails to be read, parsed or type-checked; none
when it passes all three. -/
def fileError (env : Env) (file : Str) : Option Str :=
  match env.ReadFile file with
  | Except.error err => some err
  | Except.ok data =>
    match env.ParseFile (env.Base file) data with
    | Except.error err => some err
    | Except.ok (_, f) =>
      match env.Files f with
      | Except.error err => some err
      | Except.ok _ => none

/-! ## A worked example

The file `demo.go`; positions are byte offsets plus one, as `go/token` counts
them for the first file of a file set.

    package main                    // file scope [1, 125)
                                    //
    // a plain comment              // comment at 15
    var x int                       // package-level x, declared at 38
                                    //
    func f() {                      // f declared at 50, function scope [54, 110)
        {                           // block scope [57, 85)
            // inspect:x, y, x, z   // comment at 61
        }
        x := 1                      // local x, declared at 87, in scope from 93
        z := x                      // local z, declared at 95, in scope from 101
        _ = z
    }
                                    //
    // inspect:f                    // comment at 112
-/

/-- The text of `demo.go`. -/
def demoSource : Str :=
  ("package main\n\n// a plain comment\nvar x int\n\nfunc f() \x7b\n\t\x7b\n"
    ++ "\t\t// inspect:x, y, x, z\n\t\x7d\n\tx := 1\n\tz := x\n\t_ = z\n\x7d\n\n"
    ++ "// inspect:f\n").toList

/-- The line and the column of a byte offset in a text, both counted from 1. -/
def lineColumn : Str → Nat → Nat → Nat → Nat × Nat
  | [], _, line, column => (line, column)
  | _ :: _, 0, line, column => (line, column)
  | ch :: rest, offset + 1, line, column =>
    if ch = '\n' then lineColumn rest offset (line + 1) 1
    else lineColumn rest offset line (column + 1)

/-- The text of `fset.Position(pos)` for a file set holding one file:
`name:line:column`, and `-` for the position `NoPos`. -/
def positionText (fileName src : Str) (pos : Nat) : Str :=
  if pos = 0 then "-".toList
  else
    let lc := lineColumn src (pos - 1) 1 1
    fileName ++ ":".toList ++ Nat.toDigits 10 lc.1 ++ ":".toList ++ Nat.toDigits 10 lc.2

/-- The package-level variable `x` of `demo.go`. -/
def demoPkgX : Object :=
  { kind := ObjKind.Var, typeString := "int".toList,
    pkgString := "package main (\"\")".toList,
    pos := 38, scopePos := 0, exported := false, params := [], results := [],
    underlyingKind := "*types.Basic".toList, underlyingString := "int".toList }

/-- The variable `x` local to `f`, in scope only after its declaration. -/
def demoLocalX : Object :=
  { kind := ObjKind.Var, typeString := "int".toList,
    pkgString := "package main (\"\")".toList,
    pos := 87, scopePos := 93, exported := false, params := [], results := [],
    underlyingKind := "*types.Basic".toList, underlyingString := "int".toList }

/-- The variable `z` local to `f`, in scope only after its declaration. -/
def demoLocalZ : Object :=
  { kind := ObjKind.Var, typeString := "int".toList,
    pkgString := "package main (\"\")".toList,
    pos := 95, scopePos := 101, exported := false, params := [], results := [],
    underlyingKind := "*types.Basic".toList, underlyingString := "int".toList }

/-- The function `f` of `demo.go`. -/
def demoF : Object :=
  { kind := ObjKind.Func, typeString := "func()".toList,
    pkgString := "package main (\"\")".toList,
    pos := 50, scopePos := 0, exported := false, params := "()".toList,
    results := "()".toList, underlyingKind := "*types.Signature".toList,
    underlyingString := "func()".toList }

/-- The predeclared type `int`. -/
def demoInt : Object :=
  { kind := ObjKind.TypeName, typeString := "int".toList, pkgString := "<nil>".toList,
    pos := 0, scopePos := 0, exported := false, params := [], results := [],
    underlyingKind := "*types.Basic".toList, underlyingString := "int".toList }

/-- The block nested in the body of `f`. -/
def demoBlock : Scope := Scope.mk 57 85 [] []

/-- The scope of the function `f`: the extent of its body. -/
def demoFunc : Scope :=
  Scope.mk 54 110 [("x".toList, demoLocalX), ("z".toList, demoLocalZ)] [demoBlock]

/-- The file scope of `demo.go`. -/
def demoFileScope : Scope := Scope.mk 1 125 [] [demoFunc]

/-- The package scope the checker fills for `demo.go`. -/
def demoPkg : Scope :=
  Scope.mk 0 0 [("x".toList, demoPkgX), ("f".toList, demoF)] [demoFileScope]

/-- The universe scope, cut down to `int`. -/
def demoUniverse : Scope := Scope.mk 0 0 [("int".toList, demoInt)] []

/-- The plain comment of `demo.go`. -/
def demoPlain : CommentGroup := { Text := "a plain comment\n".toList, Pos := 15 }

/-- The directive inside the nested block. -/
def demoDirective : CommentGroup :=
  { Text := "inspect:x, y, x, z\n".toList, Pos := 61 }

/-- The directive at the end of the file. -/
def demoLast : CommentGroup := { Text := "inspect:f\n".toList, Pos := 112 }

/-- The syntax tree of `demo.go`. -/
def demoFile : AstFile :=
  { Syntax := "demo".toList, Comments := [demoPlain, demoDirective, demoLast] }

/-- The file set after parsing `demo.go`. -/
def demoFset : FileSet :=
  { Position := positionText "demo.go".toList demoSource }

/-- A world with three files: `demo.go` is well formed, `broken.go` does not
parse, `illtyped.go` parses and fails the type check; no other file exists.
Names are quoted as `%q` quotes a Go identifier. -/
def demoEnv : Env :=
  { ReadFile := fun file =>
      if file = "demo.go".toList then Except.ok demoSource
      else if file = "broken.go".toList then Except.ok "broken source".toList
      else if file = "illtyped.go".toList then Except.ok "illtyped source".toList
      else Except.error "open: no such file or directory".toList
    Base := fun file => file
    ParseFile := fun _ code =>
      if code = "broken source".toList then Except.error "expected declaration".toList
      else if code = "illtyped source".toList then
        Except.ok (demoFset, { Syntax := "illtyped".toList, Comments := [demoLast] })
      else Except.ok (demoFset, demoFile)
    Files := fun f =>
      if f.Syntax = "illtyped".toList then Except.error "undefined: y".toList
      else Except.ok demoPkg
    Universe := demoUniverse
    Quote := fun s => "\"".toList ++ s ++ "\"".toList }

/-- The scope `a` is the first child of `b` around `pos`: it contains `pos` and
no child of `b` listed before it does. -/
def FirstChildAt (pos : Nat) (a b : Scope) : Prop :=
  ∃ before after : List Scope,
    b.children = before ++ a :: after ∧
    (∀ x ∈ before, x.Contains pos = false) ∧
    a.Contains pos = true

/-- The chain `r` leads from a scope with no child around `pos`, through
scopes that contain `pos`, each the first child around `pos` of the next, up to
`s` and then to the parents of `s`. -/
def EnclosingChain (pos : Nat) (s : Scope) (parents r : ScopeRef) : Prop :=
  ∃ inner : List Scope,
    r = inner ++ s :: parents ∧
    List.Chain' (FirstChildAt pos) (inner ++ [s]) ∧
    ∀ t, (inner ++ [s]).head? = some t → ∀ ch ∈ t.children, ch.Contains pos = false

/-! ## Lemmas on the string functions -/

theorem hasPrefix_iff (s pre : Str) : HasPrefix s pre = true ↔ pre <+: s := by
  unfold HasPrefix
  rw [List.prefix_iff_eq_take]
  constructor
  · intro h
    simp only [Bool.and_eq_true, decide_eq_true_eq, beq_iff_eq] at h
    exact h.2.symm
  · intro h
    simp only [Bool.and_eq_true, decide_eq_true_eq, beq_iff_eq]
    refine ⟨?_, h.symm⟩
    have hlen := congrArg List.length h
    rw [List.length_take] at hlen
    omega

theorem hasPrefix_append (pre s : Str) : HasPrefix (pre ++ s) pre = true :=
  (hasPrefix_iff _ _).2 (List.prefix_append pre s)

theorem trimPrefix_append (pre s : Str) : TrimPrefix (pre ++ s) pre = s := by
  unfold TrimPrefix
  rw [hasPrefix_append]
  simp

theorem split_eq_splitOn (s : Str) (sep : Char) : Split s sep = s.splitOn sep := by
  induction s with
  | nil => rfl
  | cons c cs ih =>
    unfold Split
    rw [ih]
    unfold List.splitOn
    rw [List.splitOnP_cons]
    by_cases h : c = sep
    · simp [h]
    · have hb : (c == sep) = false := by simpa using h
      simp only [h, hb, if_false, Bool.false_eq_true]
      cases hsp : List.splitOnP (fun x => x == sep) cs with
      | nil => exact absurd hsp (List.splitOnP_ne_nil _ _)
      | cons p ps => rfl

theorem trimLeftSpace_eq (s : Str) : trimLeftSpace s = s.dropWhile isSpace := by
  induction s with
  | nil => rfl
  | cons c cs ih =>
    unfold trimLeftSpace
    rw [List.dropWhile_cons, ih]

theorem trimRightSpace_concat (s : Str) (a : Char) :
    trimRightSpace (s ++ [a]) = if isSpace a then trimRightSpace s else s ++ [a] := by
  induction s with
  | nil =>
    simp only [List.nil_append, trimRightSpace]
  | cons c cs ih =>
    rw [List.cons_append]
    unfold trimRightSpace
    rw [ih]
    cases ha : isSpace a
    · simp only [Bool.false_eq_true, if_false]
      cases hcs : cs ++ [a] with
      | nil => simp at hcs
      | cons d ds => rfl
    · simp

theorem trimRightSpace_eq (s : Str) : trimRightSpace s = s.rdropWhile isSpace := by
  induction s using List.reverseRecOn with
  | nil => rfl
  | append_singleton l a ih =>
    rw [trimRightSpace_concat, List.rdropWhile_concat, ih]

theorem trimSpace_eq_specTrim (s : Str) : TrimSpace s = specTrim s := by
  unfold TrimSpace specTrim
  rw [trimRightSpace_eq, trimLeftSpace_eq]
  rfl

theorem foldl_names (parts : List Str) (acc : Slice Str) :
    parts.foldl
      (fun names part =>
        let name := TrimSpace part
        if name ≠ [] then names.append name else names) acc
      = Slice.ofNames acc ((parts.map TrimSpace).filter (fun piece => piece ≠ [])) := by
  induction parts generalizing acc with
  | nil => rfl
  | cons p ps ih =>
    rw [List.foldl_cons, ih]
    by_cases hp : TrimSpace p = []
    · simp [hp]
    · simp only [ne_eq, hp, not_false_eq_true, if_true, List.map_cons, decide_True,
        List.filter_cons_of_pos]
      cases hk : List.filter (fun piece => decide (piece ≠ [])) (List.map TrimSpace ps) with
      | nil => cases acc <;> rfl
      | cons k ks => cases acc <;> simp [Slice.ofNames, Slice.append, Slice.elems]

theorem findLookupNames_prefixed (s : Str) :
    findLookupNames (inspectPrefix ++ s) = Slice.ofNames Slice.nil (specNames s) := by
  unfold findLookupNames
  rw [hasPrefix_append, trimPrefix_append]
  simp only [Bool.not_true, Bool.false_eq_true, if_false]
  rw [foldl_names, split_eq_splitOn]
  unfold specNames
  congr 2
  apply List.map_congr_left
  intro a _
  exact trimSpace_eq_specTrim a

theorem findLookupNames_unprefixed (t : Str) (h : ¬ inspectPrefix <+: t) :
    findLookupNames t = Slice.nil := by
  unfold findLookupNames
  have hp : HasPrefix t inspectPrefix = false := by
    cases hh : HasPrefix t inspectPrefix
    · rfl
    · exact absurd ((hasPrefix_iff _ _).1 hh) h
  simp [hp]

theorem commentLoop_cons_nil (env : Env) (fset : FileSet) (pkgScope : Scope)
    (c : CommentGroup) (rest : List CommentGroup)
    (h : findLookupNames c.Text = Slice.nil) :
    commentLoop env fset pkgScope (c :: rest) = commentLoop env fset pkgScope rest := by
  rw [commentLoop]
  simp only [h, Slice.isNil, if_true]

theorem commentLoop_cons_of (env : Env) (fset : FileSet) (pkgScope : Scope)
    (c : CommentGroup) (rest : List CommentGroup) (names : List Str)
    (h : findLookupNames c.Text = Slice.of names) :
    commentLoop env fset pkgScope (c :: rest)
      = nameLoop env fset c.Pos (Innermost env.Universe pkgScope c.Pos) names
        ++ commentLoop env fset pkgScope rest := by
  rw [commentLoop]
  simp only [h, Slice.isNil, Slice.elems, Bool.false_eq_true, if_false]

theorem commentLoop_append (env : Env) (fset : FileSet) (pkgScope : Scope)
    (before after : List CommentGroup) :
    commentLoop env fset pkgScope (before ++ after)
      = commentLoop env fset pkgScope before ++ commentLoop env fset pkgScope after := by
  induction before with
  | nil => rfl
  | cons c cs ih =>
    rw [List.cons_append]
    cases h : findLookupNames c.Text with
    | nil =>
      rw [commentLoop_cons_nil _ _ _ _ _ h, commentLoop_cons_nil _ _ _ _ _ h, ih]
    | of names =>
      rw [commentLoop_cons_of _ _ _ _ _ _ h, commentLoop_cons_of _ _ _ _ _ _ h, ih,
        List.append_assoc]

theorem commentLoop_skip (env : Env) (fset : FileSet) (pkgScope : Scope)
    (before after : List CommentGroup) (c : CommentGroup)
    (h : findLookupNames c.Text = Slice.nil) :
    commentLoop env fset pkgScope (before ++ c :: after)
      = commentLoop env fset pkgScope (before ++ after) := by
  rw [commentLoop_append, commentLoop_append, commentLoop_cons_nil _ _ _ _ _ h]

theorem specTrim_eq_nil_iff (p : Str) : specTrim p = [] ↔ ∀ c ∈ p, isSpace c = true := by
  unfold specTrim
  rw [List.reverse_eq_nil_iff, List.dropWhile_eq_nil_iff]
  constructor
  · intro h
    have hnil : p.dropWhile isSpace = [] := by
      by_contra hne
      have hhead := List.head_dropWhile_not isSpace p hne
      have hmem : (p.dropWhile isSpace).head hne ∈ (p.dropWhile isSpace).reverse :=
        List.mem_reverse.2 (List.head_mem hne)
      rw [h _ hmem] at hhead
      exact absurd hhead (by simp)
    exact List.dropWhile_eq_nil_iff.1 hnil
  · intro h c hc
    exact h c ((List.dropWhile_sublist isSpace).subset (List.mem_reverse.1 hc))

theorem specTrim_blank (w : Str) (h : isBlank w = true) : specTrim w = [] := by
  rw [specTrim_eq_nil_iff]
  intro c hc
  exact List.all_eq_true.1 h c hc

theorem isName_head (n : Str) (h : isName n = true) :
    ∃ a rest, n = a :: rest ∧ isSpace a = false := by
  unfold isName at h
  cases n with
  | nil => simp at h
  | cons a rest =>
    refine ⟨a, rest, rfl, ?_⟩
    simp only [List.head?_cons] at h
    split at h
    · next x y hx hy =>
      cases hx
      simp only [Bool.and_eq_true, Bool.not_eq_true'] at h
      exact h.1.1
    · exact absurd h (by simp)

theorem isName_last (n : Str) (h : isName n = true) :
    ∃ front b, n = front ++ [b] ∧ isSpace b = false := by
  unfold isName at h
  split at h
  · next a b ha hb =>
    rw [List.getLast?_eq_some_iff] at hb
    obtain ⟨front, hfront⟩ := hb
    refine ⟨front, b, hfront, ?_⟩
    simp only [Bool.and_eq_true, Bool.not_eq_true'] at h
    exact h.1.2
  · exact absurd h (by simp)

theorem isName_no_comma (n : Str) (h : isName n = true) : ',' ∉ n := by
  unfold isName at h
  split at h
  · simp only [Bool.and_eq_true, List.all_eq_true] at h
    intro hmem
    have := h.2 ',' hmem
    simp at this
  · exact absurd h (by simp)

theorem isBlank_no_comma (w : Str) (h : isBlank w = true) : ',' ∉ w := by
  intro hmem
  have := List.all_eq_true.1 h ',' hmem
  exact absurd this (by decide)

theorem specTrim_padded (left name right : Str) (hl : isBlank left = true)
    (hn : isName name = true) (hr : isBlank right = true) :
    specTrim (left ++ name ++ right) = name := by
  obtain ⟨a, rest, hhead, ha⟩ := isName_head name hn
  obtain ⟨front, b, hlast, hb⟩ := isName_last name hn
  unfold specTrim
  have hl2 : ∀ c ∈ left, isSpace c = true := fun c hc => List.all_eq_true.1 hl c hc
  have hr2 : ∀ c ∈ right.reverse, isSpace c = true :=
    fun c hc => List.all_eq_true.1 hr c (List.mem_reverse.1 hc)
  rw [List.append_assoc, List.dropWhile_append_of_pos hl2]
  have h1 : (name ++ right).dropWhile isSpace = name ++ right := by
    rw [hhead, List.cons_append, List.dropWhile_cons_of_neg (by simp [ha])]
  rw [h1, List.reverse_append, List.dropWhile_append_of_pos hr2]
  have h2 : name.reverse.dropWhile isSpace = name.reverse := by
    rw [hlast, List.reverse_append, List.reverse_singleton, List.singleton_append,
      List.dropWhile_cons_of_neg (by simp [hb])]
  rw [h2, List.reverse_reverse]

theorem isName_ne_nil (n : Str) (h : isName n = true) : n ≠ [] := by
  obtain ⟨a, rest, hhead, _⟩ := isName_head n h
  rw [hhead]
  exact List.cons_ne_nil _ _

theorem trimmed_entries (entries : List Entry)
    (hwf : ∀ e ∈ entries, e.wellFormed = true) :
    ((entries.map Entry.text).map specTrim).filter (fun piece => piece ≠ [])
      = entries.filterMap Entry.name := by
  induction entries with
  | nil => rfl
  | cons e es ih =>
    have ih2 := ih (fun x hx => hwf x (List.mem_cons_of_mem _ hx))
    have he := hwf e (List.mem_cons_self _ _)
    cases e with
    | named left name right =>
      simp only [Entry.wellFormed, Bool.and_eq_true] at he
      have ht := specTrim_padded left name right he.1.1 he.1.2 he.2
      have hne := isName_ne_nil name he.1.2
      simp only [List.map_cons, Entry.text, ht, List.filterMap_cons, Entry.name]
      rw [List.filter_cons_of_pos (by simpa using hne), ih2]
    | blank space =>
      have ht := specTrim_blank space he
      simp only [List.map_cons, Entry.text, ht, List.filterMap_cons, Entry.name]
      rw [List.filter_cons_of_neg (by simp), ih2]

theorem entry_no_comma (e : Entry) (h : e.wellFormed = true) : ',' ∉ e.text := by
  cases e with
  | named left name right =>
    simp only [Entry.wellFormed, Bool.and_eq_true] at h
    simp only [Entry.text, List.mem_append, not_or]
    exact ⟨⟨isBlank_no_comma _ h.1.1, isName_no_comma _ h.1.2⟩, isBlank_no_comma _ h.2⟩
  | blank space => exact isBlank_no_comma _ h

theorem specNames_entries (entries : List Entry)
    (hwf : ∀ e ∈ entries, e.wellFormed = true) :
    specNames ([','].intercalate (entries.map Entry.text))
      = entries.filterMap Entry.name := by
  unfold specNames
  by_cases hnil : entries = []
  · subst hnil
    decide
  · rw [List.splitOn_intercalate]
    · exact trimmed_entries entries hwf
    · intro l hl
      obtain ⟨e, he, rfl⟩ := List.mem_map.1 hl
      exact entry_no_comma e (hwf e he)
    · simpa using hnil

/-! ## The directive grammar -/

/-- C1: for every string `s`, the names `findLookupNames` extracts from
`"inspect:" ++ s` are the pieces of `s` between commas, each trimmed of
surrounding whitespace, without the pieces that are empty after trimming, in
their original order; and `"inspect:a, b ,c"` gives exactly `["a","b","c"]`. -/
theorem findLookupNames_refines_spec :
    (∀ s : Str, (findLookupNames (inspectPrefix ++ s)).elems = specNames s) ∧
    findLookupNames "inspect:a, b ,c".toList
      = Slice.of ["a".toList, "b".toList, "c".toList] := by
  refine ⟨?_, by decide⟩
  intro s
  rw [findLookupNames_prefixed]
  cases specNames s <;> rfl

/-- C2: a comment text that does not begin with `inspect:` yields the nil
slice, and the comment loop of `inspectCode` has no effect for such a comment:
its trace is that of the comments before and after it. -/
theorem non_directive_comment_silent (env : Env) (fset : FileSet) (pkgScope : Scope)
    (before after : List CommentGroup) (c : CommentGroup)
    (h : ¬ inspectPrefix <+: c.Text) :
    findLookupNames c.Text = Slice.nil ∧
    commentLoop env fset pkgScope [c] = [] ∧
    commentLoop env fset pkgScope (before ++ c :: after)
      = commentLoop env fset pkgScope before ++ commentLoop env fset pkgScope after := by
  have hnil := findLookupNames_unprefixed c.Text h
  refine ⟨hnil, ?_, ?_⟩
  · rw [commentLoop_cons_nil _ _ _ _ _ hnil]
    rfl
  · rw [commentLoop_skip env fset pkgScope before after c hnil, commentLoop_append]

/-- Witness for C2: the prefix preceded by a blank, in another letter case, or
later in the text does not make a directive. -/
theorem non_directive_comment_silent_witness :
    (findLookupNames (CommentGroup.mk " inspect:x".toList 61).Text = Slice.nil ∧
      commentLoop demoEnv demoFset demoPkg [CommentGroup.mk " inspect:x".toList 61] = [] ∧
      commentLoop demoEnv demoFset demoPkg
          ([demoDirective] ++ CommentGroup.mk " inspect:x".toList 61 :: [demoLast])
        = commentLoop demoEnv demoFset demoPkg [demoDirective]
          ++ commentLoop demoEnv demoFset demoPkg [demoLast]) ∧
    findLookupNames (CommentGroup.mk "Inspect:x".toList 61).Text = Slice.nil ∧
    findLookupNames (CommentGroup.mk "see inspect:x".toList 61).Text = Slice.nil :=
  ⟨non_directive_comment_silent demoEnv demoFset demoPkg [demoDirective] [demoLast]
      (CommentGroup.mk " inspect:x".toList 61) (by decide),
   (non_directive_comment_silent demoEnv demoFset demoPkg [] []
      (CommentGroup.mk "Inspect:x".toList 61) (by decide)).1,
   (non_directive_comment_silent demoEnv demoFset demoPkg [] []
      (CommentGroup.mk "see inspect:x".toList 61) (by decide)).1⟩

/-- C9: round trip.  For names that are not empty, hold no comma and have no
leading or trailing whitespace, `findLookupNames` gives back a non-empty list
of names joined with commas after the prefix; and the result is the same when
whitespace is put around the names and empty or whitespace-only entries are
put between the commas. -/
theorem findLookupNames_roundtrip (names : List Str)
    (hnames : ∀ n ∈ names, isName n = true) :
    (names ≠ [] →
      findLookupNames (inspectPrefix ++ [','].intercalate names) = Slice.of names) ∧
    ∀ entries : List Entry, (∀ e ∈ entries, e.wellFormed = true) →
      entries.filterMap Entry.name = names →
      findLookupNames (inspectPrefix ++ [','].intercalate (entries.map Entry.text))
        = findLookupNames (inspectPrefix ++ [','].intercalate names) := by
  have hplain : specNames ([','].intercalate names) = names := by
    have hwf : ∀ e ∈ names.map (fun n => Entry.named [] n []), e.wellFormed = true := by
      intro e he
      obtain ⟨n, hn, rfl⟩ := List.mem_map.1 he
      simp [Entry.wellFormed, isBlank, hnames n hn]
    have h := specNames_entries _ hwf
    simp only [List.map_map, List.filterMap_map] at h
    have h1 : (Entry.text ∘ fun n => Entry.named [] n []) = id := by
      funext n
      simp [Entry.text]
    have h2 : (Entry.name ∘ fun n => Entry.named [] n []) = some := by
      funext n
      simp [Entry.name]
    rw [h1, h2, List.map_id, List.filterMap_some] at h
    exact h
  constructor
  · intro hne
    rw [findLookupNames_prefixed, hplain]
    cases names with
    | nil => exact absurd rfl hne
    | cons n ns => rfl
  · intro entries hwf hfilter
    rw [findLookupNames_prefixed, findLookupNames_prefixed, hplain,
      specNames_entries entries hwf, hfilter]

/-- Witness for C9: two names, plain and padded with blank entries. -/
theorem findLookupNames_roundtrip_witness :
    findLookupNames (inspectPrefix ++ [','].intercalate ["alpha".toList, "b c".toList])
      = Slice.of ["alpha".toList, "b c".toList] ∧
    findLookupNames (inspectPrefix ++ [','].intercalate
        ([Entry.blank [], Entry.named " ".toList "alpha".toList "\t ".toList,
          Entry.blank "  ".toList, Entry.named [] "b c".toList "\n".toList].map Entry.text))
      = findLookupNames (inspectPrefix ++ [','].intercalate ["alpha".toList, "b c".toList]) :=
  ⟨(findLookupNames_roundtrip ["alpha".toList, "b c".toList] (by decide)).1 (by decide),
   (findLookupNames_roundtrip ["alpha".toList, "b c".toList] (by decide)).2
      [Entry.blank [], Entry.named " ".toList "alpha".toList "\t ".toList,
        Entry.blank "  ".toList, Entry.named [] "b c".toList "\n".toList]
      (by decide) rfl⟩

/-- C10: `findLookupNames` returns the nil slice exactly when the text does not
begin with `inspect:` or every comma-separated piece after the prefix is empty
or whitespace only; the comment loop of `inspectCode` then skips the comment
without any effect, as for `"inspect:"` and `"inspect: , ,"`. -/
theorem findLookupNames_nil_iff :
    (∀ t : Str, findLookupNames t = Slice.nil ↔
      (¬ inspectPrefix <+: t ∨
        ∀ piece ∈ (t.drop inspectPrefix.length).splitOn ',',
          ∀ ch ∈ piece, isSpace ch = true)) ∧
    (∀ (env : Env) (fset : FileSet) (pkgScope : Scope)
        (before after : List CommentGroup) (c : CommentGroup),
      findLookupNames c.Text = Slice.nil →
      commentLoop env fset pkgScope (before ++ c :: after)
        = commentLoop env fset pkgScope (before ++ after)) ∧
    findLookupNames "inspect:".toList = Slice.nil ∧
    findLookupNames "inspect: , ,".toList = Slice.nil := by
  refine ⟨?_, ?_, by decide, by decide⟩
  · intro t
    by_cases hp : inspectPrefix <+: t
    · obtain ⟨s, rfl⟩ := hp
      rw [findLookupNames_prefixed, List.drop_left]
      have hspec : specNames s = [] ↔
          ∀ piece ∈ s.splitOn ',', ∀ ch ∈ piece, isSpace ch = true := by
        unfold specNames
        rw [List.filter_eq_nil_iff]
        constructor
        · intro h piece hpiece
          have := h (specTrim piece) (List.mem_map_of_mem _ hpiece)
          rw [← specTrim_eq_nil_iff]
          simpa using this
        · intro h a ha
          obtain ⟨piece, hpiece, rfl⟩ := List.mem_map.1 ha
          have := (specTrim_eq_nil_iff piece).2 (h piece hpiece)
          simp [this]
      constructor
      · intro h
        right
        apply hspec.1
        cases hs : specNames s with
        | nil => rfl
        | cons k ks =>
          rw [hs] at h
          exact Slice.noConfusion h
      · intro h
        rcases h with h | h
        · exact absurd (List.prefix_append _ _) h
        · rw [hspec.2 h]
          rfl
    · constructor
      · intro _
        exact Or.inl hp
      · intro _
        exact findLookupNames_unprefixed t hp
  · intro env fset pkgScope before after c h
    exact commentLoop_skip env fset pkgScope before after c h

/-! ## Traces of the loops -/

theorem stdout_append (xs ys : List Event) : stdout (xs ++ ys) = stdout xs ++ stdout ys := by
  induction xs with
  | nil => rfl
  | cons x xs ih =>
    cases x <;> simp [stdout, ih]

theorem lookups_append (xs ys : List Event) :
    lookups (xs ++ ys) = lookups xs + lookups ys := by
  induction xs with
  | nil => simp [lookups]
  | cons x xs ih =>
    cases x <;> simp [lookups, ih]
    omega

theorem nameLoop_append (env : Env) (fset : FileSet) (pos : Nat) (scope : ScopeRef)
    (xs ys : List Str) :
    nameLoop env fset pos scope (xs ++ ys)
      = nameLoop env fset pos scope xs ++ nameLoop env fset pos scope ys := by
  induction xs with
  | nil => rfl
  | cons x xs ih =>
    simp only [List.cons_append, nameLoop, List.append_eq, ih, List.append_assoc]

theorem nameLoop_eq_reports (env : Env) (fset : FileSet) (pkgScope : Scope)
    (c : CommentGroup) (names : List Str) :
    nameLoop env fset c.Pos (Innermost env.Universe pkgScope c.Pos) names
      = names.flatMap (report env fset pkgScope c) := by
  induction names with
  | nil => rfl
  | cons n ns ih =>
    simp only [nameLoop, ih, List.flatMap_cons, printObj, report,
      List.append_assoc, List.cons_append, List.nil_append]

theorem commentLoop_eq_reports (env : Env) (fset : FileSet) (pkgScope : Scope)
    (comments : List CommentGroup) :
    commentLoop env fset pkgScope comments
      = comments.flatMap
          (fun c => (findLookupNames c.Text).elems.flatMap (report env fset pkgScope c)) := by
  induction comments with
  | nil => rfl
  | cons c cs ih =>
    rw [List.flatMap_cons, ← ih]
    cases h : findLookupNames c.Text with
    | nil =>
      rw [commentLoop_cons_nil _ _ _ _ _ h]
      rfl
    | of names =>
      rw [commentLoop_cons_of _ _ _ _ _ _ h, nameLoop_eq_reports]
      rfl

theorem stdout_reports (env : Env) (fset : FileSet) (pkgScope : Scope)
    (c : CommentGroup) (names : List Str) :
    stdout (names.flatMap (report env fset pkgScope c))
      = names.flatMap (reportText env fset pkgScope c) := by
  induction names with
  | nil => rfl
  | cons n ns ih =>
    simp only [List.flatMap_cons, stdout_append, ih]
    simp [report, reportText, stdout]

theorem lookups_reports (env : Env) (fset : FileSet) (pkgScope : Scope)
    (c : CommentGroup) (names : List Str) :
    lookups (names.flatMap (report env fset pkgScope c)) = names.length := by
  induction names with
  | nil => rfl
  | cons n ns ih =>
    simp only [List.flatMap_cons, lookups_append, ih]
    simp [report, lookups]
    omega

theorem inspectFile_panicked (env : Env) (file : Str) :
    (inspectFile env file).panicked = fileError env file := by
  unfold inspectFile fileError
  cases env.ReadFile file with
  | error err => rfl
  | ok data =>
    simp only [inspectCode]
    cases env.ParseFile (env.Base file) data with
    | error err => rfl
    | ok parsed =>
      obtain ⟨fset, f⟩ := parsed
      simp only
      cases env.Files f with
      | error err => rfl
      | ok pkgScope => rfl

theorem inspectFile_failed_trace (env : Env) (file err : Str)
    (h : fileError env file = some err) :
    stdout (inspectFile env file).trace = [] ∧ lookups (inspectFile env file).trace = 0 := by
  unfold fileError at h
  unfold inspectFile
  cases hr : env.ReadFile file with
  | error e => exact ⟨rfl, rfl⟩
  | ok data =>
    rw [hr] at h
    simp only [inspectCode] at h ⊢
    cases hp : env.ParseFile (env.Base file) data with
    | error e => exact ⟨rfl, rfl⟩
    | ok parsed =>
      obtain ⟨fset, f⟩ := parsed
      rw [hp] at h
      simp only at h ⊢
      cases hc : env.Files f with
      | error e => exact ⟨rfl, rfl⟩
      | ok pkgScope =>
        rw [hc] at h
        exact absurd h (by simp)

theorem fileLoop_failed (env : Env) (bad err : Str) (rest : List Str)
    (h : fileError env bad = some err) :
    fileLoop env (bad :: rest)
      = ⟨Event.print (banner bad) :: (inspectFile env bad).trace, some err⟩ := by
  have hp := inspectFile_panicked env bad
  rw [h] at hp
  simp only [fileLoop, hp]

theorem fileLoop_passed (env : Env) (okFiles more : List Str)
    (h : ∀ g ∈ okFiles, fileError env g = none) :
    fileLoop env (okFiles ++ more)
      = ⟨(fileLoop env okFiles).trace ++ (fileLoop env more).trace,
          (fileLoop env more).panicked⟩ := by
  induction okFiles with
  | nil => rfl
  | cons g gs ih =>
    have hg := inspectFile_panicked env g
    rw [h g (List.mem_cons_self _ _)] at hg
    have ih2 := ih (fun x hx => h x (List.mem_cons_of_mem _ hx))
    simp only [List.cons_append, fileLoop, hg, List.append_eq, ih2, List.append_assoc]

/-! ## The program -/

/-- C3: when the scope lookup of a name finds no object, `formatObj` returns
exactly the marker `"\t<not found>\n"`, the run is not ended by a panic, and
the names before and after it in the directive and the comments before and
after it are looked up and printed as usual. -/
theorem not_found_is_reported (env : Env) (code fileName : Str) (fset : FileSet)
    (f : AstFile) (pkgScope : Scope) (before after : List CommentGroup)
    (c : CommentGroup) (names1 names2 : List Str) (name : Str)
    (hparse : env.ParseFile fileName code = Except.ok (fset, f))
    (hcheck : env.Files f = Except.ok pkgScope)
    (hcomments : f.Comments = before ++ c :: after)
    (hnames : findLookupNames c.Text = Slice.of (names1 ++ name :: names2))
    (hmiss : LookupParent name c.Pos (Innermost env.Universe pkgScope c.Pos) = none) :
    formatObj fset (LookupParent name c.Pos (Innermost env.Universe pkgScope c.Pos))
      = "\t<not found>\n".toList ∧
    inspectCode env code fileName =
      { trace :=
          [Event.parseFile fileName, Event.checkFiles]
            ++ commentLoop env fset pkgScope before
            ++ nameLoop env fset c.Pos (Innermost env.Universe pkgScope c.Pos) names1
            ++ [Event.lookup name c.Pos,
                Event.print (header env fset c.Pos name),
                Event.print "\t<not found>\n\n".toList]
            ++ nameLoop env fset c.Pos (Innermost env.Universe pkgScope c.Pos) names2
            ++ commentLoop env fset pkgScope after,
        panicked := none } := by
  constructor
  · rw [hmiss]
    rfl
  · simp only [inspectCode, hparse, hcheck, hcomments, commentLoop_append]
    rw [commentLoop_cons_of _ _ _ _ _ _ hnames, nameLoop_append]
    simp only [nameLoop, hmiss, printObj, formatObj, header, List.append_assoc,
      List.cons_append, List.nil_append]
    rfl

/-- Witness for C3: in `demo.go` the name `y` of the directive
`inspect:x, y, x, z` is declared nowhere. -/
theorem not_found_is_reported_witness :
    formatObj demoFset
        (LookupParent "y".toList demoDirective.Pos
          (Innermost demoEnv.Universe demoPkg demoDirective.Pos))
      = "\t<not found>\n".toList ∧
    inspectCode demoEnv demoSource "demo.go".toList =
      { trace :=
          [Event.parseFile "demo.go".toList, Event.checkFiles]
            ++ commentLoop demoEnv demoFset demoPkg [demoPlain]
            ++ nameLoop demoEnv demoFset demoDirective.Pos
                (Innermost demoEnv.Universe demoPkg demoDirective.Pos) ["x".toList]
            ++ [Event.lookup "y".toList demoDirective.Pos,
                Event.print (header demoEnv demoFset demoDirective.Pos "y".toList),
                Event.print "\t<not found>\n\n".toList]
            ++ nameLoop demoEnv demoFset demoDirective.Pos
                (Innermost demoEnv.Universe demoPkg demoDirective.Pos)
                ["x".toList, "z".toList]
            ++ commentLoop demoEnv demoFset demoPkg [demoLast],
        panicked := none } :=
  not_found_is_reported demoEnv demoSource "demo.go".toList demoFset demoFile
    demoPkg [demoPlain] [demoLast] demoDirective ["x".toList] ["x".toList, "z".toList]
    "y".toList
    rfl rfl rfl (by decide) (by decide)

/-- C4: with no file argument (the argument vector holds at most the program
name) `main` prints exactly the usage line and returns; nothing is read. -/
theorem main_usage (env : Env) (args : List Str) (h : args.length ≤ 1) :
    main env args
      = { trace := [Event.print "usage: inspect <file.go>\n".toList], panicked := none } ∧
    ∀ file, Event.readFile file ∉ (main env args).trace := by
  have hmain : main env args
      = { trace := [Event.print "usage: inspect <file.go>\n".toList], panicked := none } := by
    unfold main
    rw [if_pos h]
  refine ⟨hmain, ?_⟩
  intro file
  rw [hmain]
  simp

/-- Witness for C4: the argument vector holding the program name only. -/
theorem main_usage_witness :
    main demoEnv ["inspect".toList]
      = { trace := [Event.print "usage: inspect <file.go>\n".toList], panicked := none } ∧
    ∀ file, Event.readFile file ∉ (main demoEnv ["inspect".toList]).trace :=
  main_usage demoEnv ["inspect".toList] (by decide)

/-- C5: when parsing or type-checking returns an error, `inspectCode` panics
with that error before its comment loop: the trace holds the parse (and the
check) only, nothing is printed and no name is looked up. -/
theorem malformed_input_panics (env : Env) (code fileName err : Str)
    (h : env.ParseFile fileName code = Except.error err ∨
      ∃ fset f, env.ParseFile fileName code = Except.ok (fset, f) ∧
        env.Files f = Except.error err) :
    (inspectCode env code fileName).panicked = some err ∧
    ((inspectCode env code fileName).trace = [Event.parseFile fileName] ∨
      (inspectCode env code fileName).trace = [Event.parseFile fileName, Event.checkFiles]) ∧
    stdout (inspectCode env code fileName).trace = [] ∧
    lookups (inspectCode env code fileName).trace = 0 := by
  rcases h with h | ⟨fset, f, hp, hc⟩
  · have hrun : inspectCode env code fileName
        = { trace := [Event.parseFile fileName], panicked := some err } := by
      simp only [inspectCode, h]
    rw [hrun]
    exact ⟨rfl, Or.inl rfl, rfl, rfl⟩
  · have hrun : inspectCode env code fileName
        = { trace := [Event.parseFile fileName, Event.checkFiles],
            panicked := some err } := by
      simp only [inspectCode, hp, hc]
    rw [hrun]
    exact ⟨rfl, Or.inr rfl, rfl, rfl⟩

/-- Witness for C5: `broken.go` does not parse, `illtyped.go` does not
type-check. -/
theorem malformed_input_panics_witness :
    ((inspectCode demoEnv "broken source".toList "broken.go".toList).panicked
        = some "expected declaration".toList ∧
      ((inspectCode demoEnv "broken source".toList "broken.go".toList).trace
          = [Event.parseFile "broken.go".toList] ∨
        (inspectCode demoEnv "broken source".toList "broken.go".toList).trace
          = [Event.parseFile "broken.go".toList, Event.checkFiles]) ∧
      stdout (inspectCode demoEnv "broken source".toList "broken.go".toList).trace = [] ∧
      lookups (inspectCode demoEnv "broken source".toList "broken.go".toList).trace = 0) ∧
    (inspectCode demoEnv "illtyped source".toList "illtyped.go".toList).panicked
        = some "undefined: y".toList :=
  ⟨malformed_input_panics demoEnv "broken source".toList "broken.go".toList
      "expected declaration".toList (Or.inl rfl),
   (malformed_input_panics demoEnv "illtyped source".toList "illtyped.go".toList
      "undefined: y".toList
      (Or.inr ⟨demoFset, { Syntax := "illtyped".toList, Comments := [demoLast] },
        rfl, rfl⟩)).1⟩

/-- C6: when some file argument fails to be read, parsed or type-checked, the
run ends in a panic at the first such file: the trace is that of the files
before it, its banner and its failed attempt, whatever files are listed after
it; the failed attempt prints nothing and looks nothing up. -/
theorem run_aborts_at_first_failure (env : Env) (prog : Str) (okFiles : List Str)
    (bad : Str) (rest : List Str) (err : Str)
    (hok : ∀ g ∈ okFiles, fileError env g = none)
    (hbad : fileError env bad = some err) :
    main env (prog :: (okFiles ++ bad :: rest))
      = { trace := (fileLoop env okFiles).trace
            ++ Event.print (banner bad) :: (inspectFile env bad).trace,
          panicked := some err } ∧
    stdout (inspectFile env bad).trace = [] ∧
    lookups (inspectFile env bad).trace = 0 := by
  refine ⟨?_, inspectFile_failed_trace env bad err hbad⟩
  unfold main
  have hlen : ¬ (prog :: (okFiles ++ bad :: rest)).length ≤ 1 := by
    simp
  rw [if_neg hlen, List.drop_one, List.tail_cons, fileLoop_passed env okFiles _ hok,
    fileLoop_failed env bad err rest hbad]

/-- Witness for C6: `demo.go illtyped.go demo.go broken.go` stops at
`illtyped.go`. -/
theorem run_aborts_at_first_failure_witness :
    main demoEnv ("inspect".toList ::
        (["demo.go".toList] ++ "illtyped.go".toList :: ["demo.go".toList, "broken.go".toList]))
      = { trace := (fileLoop demoEnv ["demo.go".toList]).trace
            ++ Event.print (banner "illtyped.go".toList)
              :: (inspectFile demoEnv "illtyped.go".toList).trace,
          panicked := some "undefined: y".toList } ∧
    stdout (inspectFile demoEnv "illtyped.go".toList).trace = [] ∧
    lookups (inspectFile demoEnv "illtyped.go".toList).trace = 0 :=
  run_aborts_at_first_failure demoEnv "inspect".toList ["demo.go".toList]
    "illtyped.go".toList ["demo.go".toList, "broken.go".toList] "undefined: y".toList
    (by decide) (by decide)

theorem inspectCode_reports_named (env : Env) (code fileName : Str) (fset : FileSet)
    (f : AstFile) (pkgScope : Scope)
    (hparse : env.ParseFile fileName code = Except.ok (fset, f))
    (hcheck : env.Files f = Except.ok pkgScope) :
    inspectCode env code fileName =
      { trace := [Event.parseFile fileName, Event.checkFiles]
          ++ f.Comments.flatMap (fun c =>
              (findLookupNames c.Text).elems.flatMap (report env fset pkgScope c)),
        panicked := none } ∧
    stdout (inspectCode env code fileName).trace
      = f.Comments.flatMap (fun c =>
          (findLookupNames c.Text).elems.flatMap (reportText env fset pkgScope c)) ∧
    lookups (inspectCode env code fileName).trace
      = (f.Comments.map (fun c => (findLookupNames c.Text).elems.length)).sum := by
  have hrun : inspectCode env code fileName =
      { trace := [Event.parseFile fileName, Event.checkFiles]
          ++ f.Comments.flatMap (fun c =>
              (findLookupNames c.Text).elems.flatMap (report env fset pkgScope c)),
        panicked := none } := by
    simp only [inspectCode, hparse, hcheck, commentLoop_eq_reports]
  refine ⟨hrun, ?_, ?_⟩
  · rw [hrun]
    simp only [stdout_append]
    generalize f.Comments = comments
    induction comments with
    | nil => rfl
    | cons c cs ih =>
      simp only [List.flatMap_cons, stdout_append, stdout_reports] at ih ⊢
      rw [← ih]
      rfl
  · rw [hrun]
    simp only [lookups_append]
    generalize f.Comments = comments
    induction comments with
    | nil => rfl
    | cons c cs ih =>
      simp only [List.flatMap_cons, lookups_append, lookups_reports, List.map_cons,
        List.sum_cons] at ih ⊢
      have h0 : lookups [Event.parseFile fileName, Event.checkFiles] = 0 := rfl
      rw [h0] at ih ⊢
      omega

/-- C8: for a file that parses and type-checks, `inspectCode` ends without a
panic and its effects are, over the comment groups in source order and over the
names of `findLookupNames` in list order, one report per name: the lookup, the
header line made of the source position of the comment, a comma and a tab, the
quoted name and a newline, and then the `formatObj` block of the object the
lookup returned, closed by a newline.  The text on standard output is the
concatenation of these reports, and the number of reports is the total number
of extracted names, repeated names included. -/
theorem inspectCode_reports (env : Env) (code fileName : Str) (fset : FileSet)
    (f : AstFile) (pkgScope : Scope)
    (hparse : env.ParseFile fileName code = Except.ok (fset, f))
    (hcheck : env.Files f = Except.ok pkgScope) :
    inspectCode env code fileName =
      { trace := [Event.parseFile fileName, Event.checkFiles]
          ++ f.Comments.flatMap (fun c =>
              (findLookupNames c.Text).elems.flatMap (fun name =>
                [Event.lookup name c.Pos,
                 Event.print
                   (fset.Position c.Pos ++ ",\t".toList ++ env.Quote name ++ "\n".toList),
                 Event.print
                   (formatObj fset
                     (LookupParent name c.Pos (Innermost env.Universe pkgScope c.Pos))
                     ++ "\n".toList)])),
        panicked := none } ∧
    stdout (inspectCode env code fileName).trace
      = f.Comments.flatMap (fun c =>
          (findLookupNames c.Text).elems.flatMap (fun name =>
            (fset.Position c.Pos ++ ",\t".toList ++ env.Quote name ++ "\n".toList)
              ++ (formatObj fset
                    (LookupParent name c.Pos (Innermost env.Universe pkgScope c.Pos))
                  ++ "\n".toList))) ∧
    lookups (inspectCode env code fileName).trace
      = (f.Comments.map (fun c => (findLookupNames c.Text).elems.length)).sum :=
  inspectCode_reports_named env code fileName fset f pkgScope hparse hcheck

set_option maxRecDepth 100000 in
/-- Witness for C8: `demo.go`, whose directive `inspect:x, y, x, z` repeats
`x`; the text on standard output, with five reports, is spelled out. -/
theorem inspectCode_reports_witness :
    (inspectCode demoEnv demoSource "demo.go".toList =
      { trace := [Event.parseFile "demo.go".toList, Event.checkFiles]
          ++ demoFile.Comments.flatMap (fun c =>
              (findLookupNames c.Text).elems.flatMap (fun name =>
                [Event.lookup name c.Pos,
                 Event.print
                   (demoFset.Position c.Pos ++ ",\t".toList ++ demoEnv.Quote name
                     ++ "\n".toList),
                 Event.print
                   (formatObj demoFset
                     (LookupParent name c.Pos (Innermost demoEnv.Universe demoPkg c.Pos))
                     ++ "\n".toList)])),
        panicked := none } ∧
    stdout (inspectCode demoEnv demoSource "demo.go".toList).trace
      = demoFile.Comments.flatMap (fun c =>
          (findLookupNames c.Text).elems.flatMap (fun name =>
            (demoFset.Position c.Pos ++ ",\t".toList ++ demoEnv.Quote name ++ "\n".toList)
              ++ (formatObj demoFset
                    (LookupParent name c.Pos (Innermost demoEnv.Universe demoPkg c.Pos))
                  ++ "\n".toList))) ∧
    lookups (inspectCode demoEnv demoSource "demo.go".toList).trace
      = (demoFile.Comments.map (fun c => (findLookupNames c.Text).elems.length)).sum) ∧
    stdout (inspectCode demoEnv demoSource "demo.go".toList).trace
      = ("demo.go:8:3,\t\"x\"\n\tKind: *types.Var\n\tType: int\n"
          ++ "\tPkg: package main (\"\")\n\tPos: demo.go:4:5\n"
          ++ "\tVar isExported: false\n\tUnderlying Type: *types.Basic int\n\n"
          ++ "demo.go:8:3,\t\"y\"\n\t<not found>\n\n"
          ++ "demo.go:8:3,\t\"x\"\n\tKind: *types.Var\n\tType: int\n"
          ++ "\tPkg: package main (\"\")\n\tPos: demo.go:4:5\n"
          ++ "\tVar isExported: false\n\tUnderlying Type: *types.Basic int\n\n"
          ++ "demo.go:8:3,\t\"z\"\n\t<not found>\n\n"
          ++ "demo.go:15:1,\t\"f\"\n\tKind: *types.Func\n\tType: func()\n"
          ++ "\tPkg: package main (\"\")\n\tPos: demo.go:6:6\n"
          ++ "\tFunc Params: ()\n\tFunc Results: ()\n"
          ++ "\tUnderlying Type: *types.Signature func()\n\n").toList ∧
    lookups (inspectCode demoEnv demoSource "demo.go".toList).trace = 5 :=
  ⟨inspectCode_reports demoEnv demoSource "demo.go".toList demoFset demoFile
    demoPkg rfl rfl, by decide, by decide⟩

/-! ## Scope lookup -/

theorem innermostIn_outside (pos : Nat) (parents : ScopeRef) (s : Scope)
    (h : s.Contains pos = false) : Scope.innermostIn pos parents s = [] := by
  cases s with
  | mk p e elems children =>
    have h2 : (decide (p ≤ pos) && decide (pos < e)) = false := h
    rw [Scope.innermostIn, h2]
    rfl

theorem innermostChild_none (pos : Nat) (parents : ScopeRef) (cs : List Scope)
    (h : ∀ c ∈ cs, c.Contains pos = false) : Scope.innermostChild pos parents cs = [] := by
  induction cs with
  | nil => rfl
  | cons c cs ih =>
    rw [Scope.innermostChild, h c (List.mem_cons_self _ _)]
    simp only [Bool.false_eq_true, if_false]
    exact ih (fun x hx => h x (List.mem_cons_of_mem _ hx))

theorem innermostChild_first (pos : Nat) (parents : ScopeRef) (before : List Scope)
    (c : Scope) (after : List Scope)
    (hb : ∀ x ∈ before, x.Contains pos = false) (hc : c.Contains pos = true) :
    Scope.innermostChild pos parents (before ++ c :: after)
      = Scope.innermostIn pos parents c := by
  induction before with
  | nil =>
    rw [List.nil_append, Scope.innermostChild, hc]
    simp only [if_true]
  | cons b bs ih =>
    rw [List.cons_append, Scope.innermostChild, hb b (List.mem_cons_self _ _)]
    simp only [Bool.false_eq_true, if_false]
    exact ih (fun x hx => hb x (List.mem_cons_of_mem _ hx))

theorem chain_concat_split (pos : Nat) (l : List Scope) (c s : Scope)
    (h : List.Chain' (FirstChildAt pos) ((l ++ [c]) ++ [s])) :
    List.Chain' (FirstChildAt pos) (l ++ [c]) ∧ FirstChildAt pos c s := by
  rw [List.chain'_append] at h
  refine ⟨h.1, h.2.2 c ?_ s ?_⟩
  · rw [List.getLast?_concat]
    rfl
  · rfl

theorem head_concat (l : List Scope) (c s : Scope) :
    ((l ++ [c]) ++ [s]).head? = (l ++ [c]).head? := by
  cases l <;> rfl

theorem innermostIn_of_path (pos : Nat) (path : List Scope) :
    ∀ (s : Scope) (parents : ScopeRef), s.Contains pos = true →
      List.Chain' (FirstChildAt pos) (path ++ [s]) →
      (∀ t, (path ++ [s]).head? = some t → ∀ ch ∈ t.children, ch.Contains pos = false) →
      Scope.innermostIn pos parents s = path ++ s :: parents := by
  induction path using List.reverseRecOn with
  | nil =>
    intro s parents hs _ hhead
    have hnone := hhead s rfl
    cases s with
    | mk p e elems children =>
      have hs2 : (decide (p ≤ pos) && decide (pos < e)) = true := hs
      rw [Scope.innermostIn, if_pos hs2, innermostChild_none pos _ children hnone]
      rfl
  | append_singleton l c ih =>
    intro s parents hs hchain hhead
    obtain ⟨hl, before, after, hchildren, hbefore, hc⟩ := chain_concat_split pos l c s hchain
    rw [head_concat] at hhead
    cases s with
    | mk p e elems children =>
      have hs2 : (decide (p ≤ pos) && decide (pos < e)) = true := hs
      have hch : children = before ++ c :: after := hchildren
      have hinner := ih c (Scope.mk p e elems children :: parents) hc hl hhead
      rw [Scope.innermostIn, if_pos hs2, hch, innermostChild_first pos _ before c after hbefore hc,
        ← hch, hinner]
      cases l <;> simp

theorem innermostFile_none (pos : Nat) (parents : ScopeRef) (files : List Scope)
    (h : ∀ c ∈ files, c.Contains pos = false) : innermostFile pos parents files = [] := by
  induction files with
  | nil => rfl
  | cons c cs ih =>
    rw [innermostFile, innermostIn_outside pos parents c (h c (List.mem_cons_self _ _))]
    exact ih (fun x hx => h x (List.mem_cons_of_mem _ hx))

theorem innermostFile_first (pos : Nat) (parents : ScopeRef) (before : List Scope)
    (c : Scope) (after : List Scope) (t : Scope) (chain : ScopeRef)
    (hb : ∀ x ∈ before, x.Contains pos = false)
    (hc : Scope.innermostIn pos parents c = t :: chain) :
    innermostFile pos parents (before ++ c :: after) = t :: chain := by
  induction before with
  | nil =>
    rw [List.nil_append, innermostFile, hc]
  | cons b bs ih =>
    rw [List.cons_append, innermostFile,
      innermostIn_outside pos parents b (hb b (List.mem_cons_self _ _))]
    exact ih (fun x hx => hb x (List.mem_cons_of_mem _ hx))

theorem innermost_of_path (univ pkgScope : Scope) (pos : Nat) (path : List Scope)
    (hchain : List.Chain' (FirstChildAt pos) (path ++ [pkgScope]))
    (hhead : ∀ t, (path ++ [pkgScope]).head? = some t →
      ∀ ch ∈ t.children, ch.Contains pos = false)
    (hin : path ≠ [] ∨ pkgScope.Contains pos = true) :
    Innermost univ pkgScope pos = path ++ [pkgScope, univ] := by
  rcases List.eq_nil_or_concat path with hnil | ⟨l, f, hconcat⟩
  · subst hnil
    have hpkg : pkgScope.Contains pos = true := by
      rcases hin with h | h
      · exact absurd rfl h
      · exact h
    rw [Innermost, innermostFile_none pos _ _ (hhead pkgScope rfl)]
    exact innermostIn_of_path pos [] pkgScope [univ] hpkg hchain hhead
  · rw [List.concat_eq_append] at hconcat
    subst hconcat
    obtain ⟨hl, before, after, hchildren, hbefore, hf⟩ :=
      chain_concat_split pos l f pkgScope hchain
    rw [head_concat] at hhead
    have hfile := innermostIn_of_path pos l f [pkgScope, univ] hf hl hhead
    have hfile2 : ∃ t chain, l ++ f :: [pkgScope, univ] = t :: chain := by
      cases l with
      | nil => exact ⟨_, _, rfl⟩
      | cons a l2 => exact ⟨_, _, rfl⟩
    obtain ⟨t, chain, htc⟩ := hfile2
    rw [htc] at hfile
    have hgoal : l ++ [f] ++ [pkgScope, univ] = t :: chain := by
      rw [← htc]
      simp
    rw [Innermost, hchildren, innermostFile_first pos _ before f after t chain hbefore hfile,
      hgoal]

mutual
theorem innermostIn_spec (pos : Nat) :
    ∀ (s : Scope) (parents : ScopeRef), s.Contains pos = true →
      EnclosingChain pos s parents (Scope.innermostIn pos parents s)
  | Scope.mk p e elems children, parents, hs => by
    have hs2 : (decide (p ≤ pos) && decide (pos < e)) = true := hs
    rcases innermostChild_spec pos children (Scope.mk p e elems children :: parents) with
      hnone | ⟨before, c, after, hsplit, hbefore, hc, inner, hr, hchain, hhead⟩
    · refine ⟨[], ?_, List.chain'_singleton _, ?_⟩
      · rw [Scope.innermostIn, if_pos hs2, innermostChild_none pos _ children hnone]
        rfl
      · intro t ht ch hch
        simp only [List.nil_append, List.head?_cons, Option.some.injEq] at ht
        subst ht
        exact hnone ch hch
    · refine ⟨inner ++ [c], ?_, ?_, ?_⟩
      · rw [Scope.innermostIn, if_pos hs2, hsplit,
          innermostChild_first pos _ before c after hbefore hc, ← hsplit, hr]
        cases inner <;> simp
      · refine List.Chain'.append hchain (List.chain'_singleton _) ?_
        intro x hx y hy
        rw [List.getLast?_concat] at hx
        simp only [Option.mem_def, Option.some.injEq] at hx
        simp only [List.head?_cons, Option.mem_def, Option.some.injEq] at hy
        subst hx
        subst hy
        exact ⟨before, after, hsplit, hbefore, hc⟩
      · rw [head_concat]
        exact hhead
theorem innermostChild_spec (pos : Nat) :
    ∀ (cs : List Scope) (parents : ScopeRef),
      (∀ c ∈ cs, c.Contains pos = false) ∨
      ∃ before c after, cs = before ++ c :: after ∧
        (∀ x ∈ before, x.Contains pos = false) ∧ c.Contains pos = true ∧
        EnclosingChain pos c parents (Scope.innermostIn pos parents c)
  | [], _ => Or.inl (by intro c hc; cases hc)
  | c :: cs, parents => by
    cases hcin : c.Contains pos
    · rcases innermostChild_spec pos cs parents with
        hnone | ⟨before, d, after, hsplit, hbefore, hd, hch⟩
      · left
        intro x hx
        rcases List.mem_cons.1 hx with h | h
        · rw [h]
          exact hcin
        · exact hnone x h
      · right
        refine ⟨c :: before, d, after, by rw [hsplit, List.cons_append], ?_, hd, hch⟩
        intro x hx
        rcases List.mem_cons.1 hx with h | h
        · rw [h]
          exact hcin
        · exact hbefore x h
    · right
      exact ⟨[], c, cs, rfl, (by intro x hx; cases hx), hcin,
        innermostIn_spec pos c parents hcin⟩
end

theorem innermost_spec (univ pkgScope : Scope) (pos : Nat) :
    (Innermost univ pkgScope pos = [] ∧
      (∀ f ∈ pkgScope.children, f.Contains pos = false) ∧
      pkgScope.Contains pos = false) ∨
    ∃ path : List Scope,
      Innermost univ pkgScope pos = path ++ [pkgScope, univ] ∧
      List.Chain' (FirstChildAt pos) (path ++ [pkgScope]) ∧
      (∀ t, (path ++ [pkgScope]).head? = some t →
        ∀ ch ∈ t.children, ch.Contains pos = false) ∧
      (path ≠ [] ∨ pkgScope.Contains pos = true) := by
  rcases innermostChild_spec pos pkgScope.children [pkgScope, univ] with
    hnone | ⟨before, f, after, hsplit, hbefore, hf, inner, hr, hchain, hhead⟩
  · cases hpkg : pkgScope.Contains pos
    · left
      refine ⟨?_, hnone, rfl⟩
      rw [Innermost, innermostFile_none pos _ _ hnone]
      exact innermostIn_outside pos [univ] pkgScope hpkg
    · right
      refine ⟨[], ?_, List.chain'_singleton _, ?_, Or.inr rfl⟩
      · exact innermost_of_path univ pkgScope pos [] (List.chain'_singleton _)
          (fun t ht => by
            simp only [List.nil_append, List.head?_cons, Option.some.injEq] at ht
            subst ht
            exact hnone)
          (Or.inr hpkg)
      · intro t ht
        simp only [List.nil_append, List.head?_cons, Option.some.injEq] at ht
        subst ht
        exact hnone
  · right
    have hchain2 : List.Chain' (FirstChildAt pos) ((inner ++ [f]) ++ [pkgScope]) := by
      refine List.Chain'.append hchain (List.chain'_singleton _) ?_
      intro x hx y hy
      rw [List.getLast?_concat] at hx
      simp only [Option.mem_def, Option.some.injEq] at hx
      simp only [List.head?_cons, Option.mem_def, Option.some.injEq] at hy
      subst hx
      subst hy
      exact ⟨before, after, hsplit, hbefore, hf⟩
    have hhead2 : ∀ t, ((inner ++ [f]) ++ [pkgScope]).head? = some t →
        ∀ ch ∈ t.children, ch.Contains pos = false := by
      rw [head_concat]
      exact hhead
    have hne : inner ++ [f] ≠ [] := by
      cases inner <;> simp
    exact ⟨inner ++ [f],
      innermost_of_path univ pkgScope pos (inner ++ [f]) hchain2 hhead2 (Or.inl hne),
      hchain2, hhead2, Or.inl hne⟩

theorem lookupParent_skip (name : Str) (pos : Nat) (inner rest : ScopeRef)
    (h : ∀ t ∈ inner, ∀ o, t.Lookup name = some o → ¬ (pos = 0 ∨ o.scopePos ≤ pos)) :
    LookupParent name pos (inner ++ rest) = LookupParent name pos rest := by
  induction inner with
  | nil => rfl
  | cons t ts ih =>
    have ih2 := ih (fun x hx => h x (List.mem_cons_of_mem _ hx))
    rw [List.cons_append, LookupParent]
    cases ht : t.Lookup name with
    | none => exact ih2
    | some o =>
      simp only
      rw [if_neg (h t (List.mem_cons_self _ _) o ht)]
      exact ih2

/-- C7, as the code has it.  Let `path` be the scopes around the position of
the comment below the package scope, innermost first: each contains the
position and is the first such child of the next, the last is a file scope of
the package, and the first has no child that contains the position (an empty
path is admitted when the package scope itself contains the position).  Then
`Innermost(pos)` returns exactly this path followed by the package scope and
the universe, so the lookup of `inspectCode` starts at the innermost scope
containing the comment, and it resolves a name to the declaration of the
nearest scope of that chain that declares it with a scope position at or
before the position of the comment; scopes whose declaration of the name
comes into scope only later are passed over. -/
theorem lookup_resolves_nearest_visible (env : Env) (fset : FileSet) (pkgScope : Scope)
    (c : CommentGroup) (name : Str) (path inner : List Scope) (s : Scope)
    (outer : List Scope) (obj : Object)
    (hpath : List.Chain' (FirstChildAt c.Pos) (path ++ [pkgScope]))
    (hinnermost : ∀ t, (path ++ [pkgScope]).head? = some t →
      ∀ ch ∈ t.children, ch.Contains c.Pos = false)
    (hfile : path ≠ [] ∨ pkgScope.Contains c.Pos = true)
    (hsplit : path ++ [pkgScope, env.Universe] = inner ++ s :: outer)
    (hinner : ∀ t ∈ inner, ∀ o, t.Lookup name = some o →
      ¬ (c.Pos = 0 ∨ o.scopePos ≤ c.Pos))
    (hdecl : s.Lookup name = some obj)
    (hvisible : c.Pos = 0 ∨ obj.scopePos ≤ c.Pos) :
    Innermost env.Universe pkgScope c.Pos = path ++ [pkgScope, env.Universe] ∧
    LookupParent name c.Pos (Innermost env.Universe pkgScope c.Pos) = some obj ∧
    nameLoop env fset c.Pos (Innermost env.Universe pkgScope c.Pos) [name]
      = [Event.lookup name c.Pos,
         Event.print (fset.Position c.Pos ++ ",\t".toList ++ env.Quote name ++ "\n".toList),
         Event.print (formatObj fset (some obj) ++ "\n".toList)] := by
  have hchain := innermost_of_path env.Universe pkgScope c.Pos path hpath hinnermost hfile
  have hres : LookupParent name c.Pos (Innermost env.Universe pkgScope c.Pos)
      = some obj := by
    rw [hchain, hsplit, lookupParent_skip name c.Pos inner _ hinner, LookupParent, hdecl]
    simp only
    rw [if_pos hvisible]
  refine ⟨hchain, hres, ?_⟩
  simp only [nameLoop, hres, printObj, List.append_nil, List.cons_append, List.nil_append,
    List.append_assoc]

/-- Witness for C7: in `demo.go` the comment `inspect:x, y, x, z` lies in the
nested block, inside `f`, inside the file; the name `x` resolves to the
package-level `x`, since the block does not declare `x` and the `x` of `f`
comes into scope after the comment. -/
theorem lookup_resolves_nearest_visible_witness :
    Innermost demoEnv.Universe demoPkg demoDirective.Pos
      = [demoBlock, demoFunc, demoFileScope] ++ [demoPkg, demoEnv.Universe] ∧
    LookupParent "x".toList demoDirective.Pos
        (Innermost demoEnv.Universe demoPkg demoDirective.Pos) = some demoPkgX ∧
    nameLoop demoEnv demoFset demoDirective.Pos
        (Innermost demoEnv.Universe demoPkg demoDirective.Pos) ["x".toList]
      = [Event.lookup "x".toList demoDirective.Pos,
         Event.print (demoFset.Position demoDirective.Pos ++ ",\t".toList
           ++ demoEnv.Quote "x".toList ++ "\n".toList),
         Event.print (formatObj demoFset (some demoPkgX) ++ "\n".toList)] :=
  lookup_resolves_nearest_visible demoEnv demoFset demoPkg demoDirective "x".toList
    [demoBlock, demoFunc, demoFileScope] [demoBlock, demoFunc, demoFileScope] demoPkg
    [demoUniverse] demoPkgX
    (by
      simp only [List.cons_append, List.nil_append, List.chain'_cons, List.chain'_singleton,
        and_true]
      exact ⟨⟨[], [], rfl, (by intro x hx; cases hx), by decide⟩,
        ⟨[], [], rfl, (by intro x hx; cases hx), by decide⟩,
        ⟨[], [], rfl, (by intro x hx; cases hx), by decide⟩⟩)
    (by
      intro t ht ch hch
      have ht2 : some demoBlock = some t := ht
      cases ht2
      cases hch)
    (Or.inl (by simp))
    rfl
    (by
      intro t ht o ho
      simp only [List.mem_cons, List.mem_singleton, List.not_mem_nil, or_false] at ht
      rcases ht with rfl | rfl | rfl
      · have ho2 : (none : Option Object) = some o := ho
        cases ho2
      · have ho2 : some demoLocalX = some o := ho
        cases ho2
        decide
      · have ho2 : (none : Option Object) = some o := ho
        cases ho2)
    rfl (by decide)

/-- Counterexample to C7 as stated: in `demo.go` the comment
`inspect:x, y, x, z` lies in the nested block, which declares neither `x` nor
`z`; the nearest enclosing scope that declares them is the scope of `f`, yet
the lookup resolves `x` to the package-level variable and finds no object for
`z`, because `f` declares both after the comment. -/
theorem lookup_passes_over_later_declaration :
    findLookupNames demoDirective.Text
      = Slice.of ["x".toList, "y".toList, "x".toList, "z".toList] ∧
    Innermost demoEnv.Universe demoPkg demoDirective.Pos
      = [demoBlock] ++ demoFunc :: [demoFileScope, demoPkg, demoUniverse] ∧
    demoBlock.Lookup "x".toList = none ∧
    demoFunc.Lookup "x".toList = some demoLocalX ∧
    LookupParent "x".toList demoDirective.Pos
        (Innermost demoEnv.Universe demoPkg demoDirective.Pos) = some demoPkgX ∧
    LookupParent "x".toList demoDirective.Pos
        (Innermost demoEnv.Universe demoPkg demoDirective.Pos) ≠ some demoLocalX ∧
    demoBlock.Lookup "z".toList = none ∧
    demoFunc.Lookup "z".toList = some demoLocalZ ∧
    LookupParent "z".toList demoDirective.Pos
        (Innermost demoEnv.Universe demoPkg demoDirective.Pos) = none :=
  ⟨by decide, rfl, by decide, by decide, by decide, by decide, by decide, by decide,
    by decide⟩

end Inspect
